import Mathlib

/-
Shallow embedding of the tensor-quantization code of the EnglishSubtitles
repository (src/python/advanced_quantization.py,
src/python/mixed_precision_quantization.py, src/python/real_quantization.py).

Modelling conventions:
* NumPy float values are modelled as exact rationals.
* np.round rounds half to even; it is modelled by roundHE.
* .astype(np.int8) / .astype(np.uint8) wrap modulo 256; modelled by
  wrapInt8 / wrapUInt8.
* A NumPy float division by zero yields a non-finite value (inf or nan);
  any code path whose output would pass through such a division has no
  finite result and is modelled as Option.none.
* Rational arithmetic is expressed through the kernel-computable wrappers
  qadd / qsub / qmul / qdiv / qmin / qmax / qabs below; the bridge lemmas
  qadd_eq, qsub_eq, ... prove each wrapper equal to the corresponding
  field operation on the rationals, so every theorem can be read with the
  ordinary operations in mind.
-/

namespace Quant

/-- The rational n / d (kernel-computable literal). -/
def q (n d : ℤ) : ℚ := Rat.divInt n d

/-- Addition on the rationals, kernel-computable form. -/
def qadd (a b : ℚ) : ℚ := Rat.divInt (a.num * b.den + b.num * a.den) (a.den * b.den)

/-- Subtraction on the rationals, kernel-computable form. -/
def qsub (a b : ℚ) : ℚ := Rat.divInt (a.num * b.den - b.num * a.den) (a.den * b.den)

/-- Multiplication on the rationals, kernel-computable form. -/
def qmul (a b : ℚ) : ℚ := Rat.divInt (a.num * b.num) (a.den * b.den)

/-- Division on the rationals (x / 0 = 0), kernel-computable form. -/
def qdiv (a b : ℚ) : ℚ := Rat.divInt (a.num * b.den) (a.den * b.num)

/-- min of two rationals, kernel-computable form. -/
def qmin (a b : ℚ) : ℚ := if a ≤ b then a else b

/-- max of two rationals, kernel-computable form. -/
def qmax (a b : ℚ) : ℚ := if a ≤ b then b else a

/-- Absolute value of a rational, kernel-computable form. -/
def qabs (a : ℚ) : ℚ := if a < 0 then -a else a

lemma q_eq (n d : ℤ) : q n d = (n : ℚ) / d := Rat.divInt_eq_div n d

lemma den_cast_ne_zero (a : ℚ) : ((a.den : ℚ)) ≠ 0 := by
  exact_mod_cast a.den_ne_zero

lemma qadd_eq (a b : ℚ) : qadd a b = a + b := by
  have ha := den_cast_ne_zero a
  have hb := den_cast_ne_zero b
  conv_rhs => rw [← Rat.num_div_den a, ← Rat.num_div_den b]
  rw [div_add_div _ _ ha hb, qadd, Rat.divInt_eq_div]
  push_cast
  ring_nf

lemma qsub_eq (a b : ℚ) : qsub a b = a - b := by
  have ha := den_cast_ne_zero a
  have hb := den_cast_ne_zero b
  conv_rhs => rw [← Rat.num_div_den a, ← Rat.num_div_den b]
  rw [div_sub_div _ _ ha hb, qsub, Rat.divInt_eq_div]
  push_cast
  ring_nf

lemma qmul_eq (a b : ℚ) : qmul a b = a * b := by
  have ha := den_cast_ne_zero a
  have hb := den_cast_ne_zero b
  conv_rhs => rw [← Rat.num_div_den a, ← Rat.num_div_den b]
  rw [div_mul_div_comm, qmul, Rat.divInt_eq_div]
  push_cast
  ring_nf

lemma qdiv_eq (a b : ℚ) : qdiv a b = a / b := by
  by_cases hb : b = 0
  · subst hb
    simp [qdiv, Rat.divInt_zero]
  · have ha := den_cast_ne_zero a
    have hd := den_cast_ne_zero b
    have hn : ((b.num : ℚ)) ≠ 0 := by
      exact_mod_cast Rat.num_ne_zero.mpr hb
    conv_rhs => rw [← Rat.num_div_den a, ← Rat.num_div_den b]
    rw [qdiv, Rat.divInt_eq_div]
    push_cast
    field_simp

lemma qmin_eq (a b : ℚ) : qmin a b = min a b := by
  unfold qmin
  rcases le_total a b with h | h
  · rw [if_pos h, min_eq_left h]
  · rcases lt_or_eq_of_le h with h' | h'
    · rw [if_neg (not_le.mpr h'), min_eq_right h]
    · subst h'; simp

lemma qmax_eq (a b : ℚ) : qmax a b = max a b := by
  unfold qmax
  rcases le_total a b with h | h
  · rw [if_pos h, max_eq_right h]
  · rcases lt_or_eq_of_le h with h' | h'
    · rw [if_neg (not_le.mpr h'), max_eq_left h]
    · subst h'; simp

lemma qabs_eq (a : ℚ) : qabs a = |a| := by
  unfold qabs
  split_ifs with h
  · rw [abs_of_neg h]
  · rw [abs_of_nonneg (not_lt.mp h)]

/-- Rat.floor agrees with the Mathlib floor. -/
lemma ratFloor_eq_intFloor (a : ℚ) : Rat.floor a = ⌊a⌋ := by
  rw [Rat.floor_def, Rat.floor_def']

/-- np.round: round a rational to the nearest integer, ties to even. -/
def roundHE (x : ℚ) : ℤ :=
  if qsub x (Rat.floor x : ℚ) < q 1 2 then Rat.floor x
  else if q 1 2 < qsub x (Rat.floor x : ℚ) then Rat.floor x + 1
  else if Rat.floor x % 2 = 0 then Rat.floor x else Rat.floor x + 1

/-- .astype(np.int8): wrap an integer into [-128, 127] modulo 256. -/
def wrapInt8 (z : ℤ) : ℤ := (z + 128) % 256 - 128

/-- .astype(np.uint8): wrap an integer into [0, 255] modulo 256. -/
def wrapUInt8 (z : ℤ) : ℤ := z % 256

/-- np.clip(·, 0, 15), as applied to the int4 codes. -/
def clip0_15 (z : ℤ) : ℤ := if z < 0 then 0 else if 15 < z then 15 else z

/-- Clamping to the signed 8-bit range (what the specification asks for). -/
def clampInt8 (z : ℤ) : ℤ := if z < -128 then -128 else if 127 < z then 127 else z

lemma abs_roundHE_sub_le (x : ℚ) : |(roundHE x : ℚ) - x| ≤ 1 / 2 := by
  have hf : ((⌊x⌋ : ℤ) : ℚ) ≤ x := Int.floor_le x
  have hf1 : x < (⌊x⌋ : ℚ) + 1 := Int.lt_floor_add_one x
  unfold roundHE
  simp only [qsub_eq, q_eq, ratFloor_eq_intFloor]
  split_ifs with h1 h2 h3
  · rw [abs_le]; constructor <;> [linarith [h1]; linarith]
  · rw [abs_le]; push_cast; constructor <;> [linarith; linarith [h2]]
  · have hx : x - (⌊x⌋ : ℚ) = 1 / 2 := le_antisymm (not_lt.mp h2) (not_lt.mp h1)
    rw [abs_le]; constructor <;> linarith [hx]
  · have hx : x - (⌊x⌋ : ℚ) = 1 / 2 := le_antisymm (not_lt.mp h2) (not_lt.mp h1)
    rw [abs_le]; push_cast; constructor <;> linarith [hx]

lemma roundHE_intCast (n : ℤ) : roundHE (n : ℚ) = n := by
  unfold roundHE
  simp only [qsub_eq, q_eq, ratFloor_eq_intFloor, Int.floor_intCast]
  rw [if_pos]
  rw [sub_self]
  norm_num

lemma roundHE_bounds {x : ℚ} {lo hi : ℤ} (hlo : (lo : ℚ) ≤ x) (hhi : x ≤ (hi : ℚ)) :
    lo ≤ roundHE x ∧ roundHE x ≤ hi := by
  have h := abs_roundHE_sub_le x
  rw [abs_le] at h
  constructor
  · have h1 : ((lo - 1 : ℤ) : ℚ) < (roundHE x : ℚ) := by push_cast; linarith [h.1]
    have h2 : lo - 1 < roundHE x := by exact_mod_cast h1
    omega
  · have h1 : (roundHE x : ℚ) < ((hi + 1 : ℤ) : ℚ) := by push_cast; linarith [h.2]
    have h2 : roundHE x < hi + 1 := by exact_mod_cast h1
    omega

lemma wrapInt8_eq_self {z : ℤ} (h1 : -128 ≤ z) (h2 : z ≤ 127) : wrapInt8 z = z := by
  unfold wrapInt8
  omega

lemma wrapUInt8_eq_self {z : ℤ} (h1 : 0 ≤ z) (h2 : z ≤ 255) : wrapUInt8 z = z := by
  unfold wrapUInt8
  omega

lemma clip0_15_eq_self {z : ℤ} (h1 : 0 ≤ z) (h2 : z ≤ 15) : clip0_15 z = z := by
  unfold clip0_15
  omega

lemma clampInt8_eq_self {z : ℤ} (h1 : -128 ≤ z) (h2 : z ≤ 127) : clampInt8 z = z := by
  unfold clampInt8
  omega

/-- ndarray.min() on the flattened data (none on an empty array). -/
def listMin : List ℚ → Option ℚ
  | [] => none
  | x :: xs => some (xs.foldl qmin x)

/-- ndarray.max() on the flattened data (none on an empty array). -/
def listMax : List ℚ → Option ℚ
  | [] => none
  | x :: xs => some (xs.foldl qmax x)

lemma qmin_le_left (a b : ℚ) : qmin a b ≤ a := by
  unfold qmin; split_ifs with h
  · exact le_refl a
  · exact le_of_lt (not_le.mp h)

lemma qmin_le_right (a b : ℚ) : qmin a b ≤ b := by
  unfold qmin; split_ifs with h
  · exact h
  · exact le_refl b

lemma qmin_choice (a b : ℚ) : qmin a b = a ∨ qmin a b = b := by
  unfold qmin; split_ifs
  · exact Or.inl rfl
  · exact Or.inr rfl

lemma le_qmax_left (a b : ℚ) : a ≤ qmax a b := by
  unfold qmax; split_ifs with h
  · exact h
  · exact le_refl a

lemma le_qmax_right (a b : ℚ) : b ≤ qmax a b := by
  unfold qmax; split_ifs with h
  · exact le_refl b
  · exact le_of_lt (not_le.mp h)

lemma qmax_choice (a b : ℚ) : qmax a b = a ∨ qmax a b = b := by
  unfold qmax; split_ifs
  · exact Or.inr rfl
  · exact Or.inl rfl

lemma foldl_qmin_le_init (xs : List ℚ) : ∀ a : ℚ, xs.foldl qmin a ≤ a := by
  induction xs with
  | nil => intro a; exact le_refl a
  | cons x xs ih => intro a; exact le_trans (ih (qmin a x)) (qmin_le_left a x)

lemma foldl_qmin_le_mem (xs : List ℚ) : ∀ (a x : ℚ), x ∈ xs → xs.foldl qmin a ≤ x := by
  induction xs with
  | nil => intro a x hx; cases hx
  | cons y ys ih =>
    intro a x hx
    rcases List.mem_cons.mp hx with h | h
    · subst h; exact le_trans (foldl_qmin_le_init ys (qmin a x)) (qmin_le_right a x)
    · exact ih (qmin a y) x h

lemma foldl_qmin_mem (xs : List ℚ) : ∀ a : ℚ, xs.foldl qmin a = a ∨ xs.foldl qmin a ∈ xs := by
  induction xs with
  | nil => intro a; left; rfl
  | cons y ys ih =>
    intro a
    rw [List.foldl_cons]
    rcases ih (qmin a y) with h | h
    · rcases qmin_choice a y with h' | h'
      · left; rw [h, h']
      · right; rw [h, h']; exact List.mem_cons_self y ys
    · right; exact List.mem_cons_of_mem y h

lemma foldl_qmax_init_le (xs : List ℚ) : ∀ a : ℚ, a ≤ xs.foldl qmax a := by
  induction xs with
  | nil => intro a; exact le_refl a
  | cons x xs ih => intro a; exact le_trans (le_qmax_left a x) (ih (qmax a x))

lemma foldl_qmax_mem_le (xs : List ℚ) : ∀ (a x : ℚ), x ∈ xs → x ≤ xs.foldl qmax a := by
  induction xs with
  | nil => intro a x hx; cases hx
  | cons y ys ih =>
    intro a x hx
    rcases List.mem_cons.mp hx with h | h
    · subst h; exact le_trans (le_qmax_right a x) (foldl_qmax_init_le ys (qmax a x))
    · exact ih (qmax a y) x h

lemma foldl_qmax_mem (xs : List ℚ) : ∀ a : ℚ, xs.foldl qmax a = a ∨ xs.foldl qmax a ∈ xs := by
  induction xs with
  | nil => intro a; left; rfl
  | cons y ys ih =>
    intro a
    rw [List.foldl_cons]
    rcases ih (qmax a y) with h | h
    · rcases qmax_choice a y with h' | h'
      · left; rw [h, h']
      · right; rw [h, h']; exact List.mem_cons_self y ys
    · right; exact List.mem_cons_of_mem y h

lemma listMin_le {l : List ℚ} {m x : ℚ} (hm : listMin l = some m) (hx : x ∈ l) : m ≤ x := by
  cases l with
  | nil => cases hm
  | cons y ys =>
    have hm' : ys.foldl qmin y = m := by simpa [listMin] using hm
    rcases List.mem_cons.mp hx with h | h
    · subst h; rw [← hm']; exact foldl_qmin_le_init ys x
    · rw [← hm']; exact foldl_qmin_le_mem ys y x h

lemma listMin_mem {l : List ℚ} {m : ℚ} (hm : listMin l = some m) : m ∈ l := by
  cases l with
  | nil => cases hm
  | cons y ys =>
    have hm' : ys.foldl qmin y = m := by simpa [listMin] using hm
    rcases foldl_qmin_mem ys y with h | h
    · rw [← hm', h]; exact List.mem_cons_self y ys
    · rw [← hm']; exact List.mem_cons_of_mem y h

lemma le_listMax {l : List ℚ} {M x : ℚ} (hM : listMax l = some M) (hx : x ∈ l) : x ≤ M := by
  cases l with
  | nil => cases hM
  | cons y ys =>
    have hM' : ys.foldl qmax y = M := by simpa [listMax] using hM
    rcases List.mem_cons.mp hx with h | h
    · subst h; rw [← hM']; exact foldl_qmax_init_le ys x
    · rw [← hM']; exact foldl_qmax_mem_le ys y x h

lemma listMax_mem {l : List ℚ} {M : ℚ} (hM : listMax l = some M) : M ∈ l := by
  cases l with
  | nil => cases hM
  | cons y ys =>
    have hM' : ys.foldl qmax y = M := by simpa [listMax] using hM
    rcases foldl_qmax_mem ys y with h | h
    · rw [← hM', h]; exact List.mem_cons_self y ys
    · rw [← hM']; exact List.mem_cons_of_mem y h

lemma listMin_le_listMax {l : List ℚ} {m M : ℚ}
    (hm : listMin l = some m) (hM : listMax l = some M) : m ≤ M :=
  listMin_le hm (listMax_mem hM)

lemma listMin_of_ne_nil {l : List ℚ} (h : l ≠ []) : ∃ m, listMin l = some m := by
  cases l with
  | nil => exact absurd rfl h
  | cons y ys => exact ⟨ys.foldl qmin y, rfl⟩

lemma listMax_of_ne_nil {l : List ℚ} (h : l ≠ []) : ∃ M, listMax l = some M := by
  cases l with
  | nil => exact absurd rfl h
  | cons y ys => exact ⟨ys.foldl qmax y, rfl⟩

lemma all_eq_of_listMin_eq_listMax {l : List ℚ} {m : ℚ}
    (hm : listMin l = some m) (hM : listMax l = some m) :
    ∀ x ∈ l, x = m :=
  fun _ hx => le_antisymm (le_listMax hM hx) (listMin_le hm hx)

/-- An input tensor: its shape and its flattened (row-major) float data. -/
structure Tensor where
  shape : List ℕ
  data : List ℚ
  deriving DecidableEq

/-- The dict returned by quantize_int8 (advanced_quantization.py, lines 101-108):
int8 codes, scale, zero_point and the original shape. -/
structure Int8Result where
  weights : List ℤ
  scale : ℚ
  zero_point : ℚ
  shape : List ℕ
  deriving DecidableEq

/-- quantize_int8 (advanced_quantization.py, lines 91-108). The source computes
scale = (w_max - w_min) / 254.0 and zero_point = -127 - w_min / scale with no
degenerate-range guard; when w_max = w_min the scale is 0 and the zero_point
division has no finite value, hence none. -/
def quantize_int8 (t : Tensor) : Option Int8Result :=
  match listMin t.data, listMax t.data with
  | some wmin, some wmax =>
    let scale := qdiv (qsub wmax wmin) 254
    if scale = 0 then none
    else
      let zp := qsub (-127) (qdiv wmin scale)
      some ⟨t.data.map (fun v => wrapInt8 (roundHE (qadd (qdiv v scale) zp))),
            scale, zp, t.shape⟩
  | _, _ => none

/-- Int8 dequantization (mixed_precision_quantization.py, lines 185-192 and
real_quantization.py, line 201): value = (code - zero_point) * scale, reshaped
to the stored shape. -/
def dequantize_int8 (r : Int8Result) : Tensor :=
  ⟨r.shape, r.weights.map (fun c : ℤ => qmul (qsub (c : ℚ) r.zero_point) r.scale)⟩

/-- The dict returned by quantize_int4 (advanced_quantization.py, lines 62-68). -/
structure Int4Result where
  packed : List ℤ
  scale : ℚ
  zero_point : ℚ
  shape : List ℕ
  original_size : ℕ
  deriving DecidableEq

/-- The packing loop of quantize_int4 (advanced_quantization.py, lines 55-60):
two consecutive 4-bit codes per byte, even index in the low nibble, odd index
in the high nibble ((high << 4) | low = 16 * high + low for nibbles); a final
unpaired code gets high nibble 0. -/
def packNibbles : List ℤ → List ℤ
  | [] => []
  | [lo] => [lo]
  | lo :: hi :: rest => (16 * hi + lo) :: packNibbles rest

/-- quantize_int4 (advanced_quantization.py, lines 39-68): scale =
(w_max - w_min) / 15.0, zero_point = w_min, codes
round((v - zero_point) / scale) cast to uint8 then clipped to [0, 15], then
packed two per byte; original_size records the true element count. When
w_max = w_min the scale is 0 and (v - zero_point) / scale has no finite
value, hence none. -/
def quantize_int4 (t : Tensor) : Option Int4Result :=
  match listMin t.data, listMax t.data with
  | some wmin, some wmax =>
    let scale := qdiv (qsub wmax wmin) 15
    if scale = 0 then none
    else
      let codes := t.data.map (fun v => clip0_15 (wrapUInt8 (roundHE (qdiv (qsub v wmin) scale))))
      some ⟨packNibbles codes, scale, wmin, t.shape, t.data.length⟩
  | _, _ => none

/-- Modelled from the spec: the source has no Int4 decoder (only the int8 and
float16 loaders exist); per the spec the decoder reads count codes, low nibble
first, ignoring a final padding nibble by using the recorded element count. -/
def unpack_int4 : List ℤ → ℕ → List ℤ
  | _, 0 => []
  | [], _ + 1 => []
  | b :: _, 1 => [b % 16]
  | b :: rest, n + 2 => b % 16 :: b / 16 :: unpack_int4 rest n

/-- Modelled from the spec: Int4 dequantization inverts the affine map,
value = code * scale + zero_point, using original_size to know the true
element count. -/
def dequantize_int4 (r : Int4Result) : Tensor :=
  ⟨r.shape, (unpack_int4 r.packed r.original_size).map
      (fun c : ℤ => qadd (qmul (c : ℚ) r.scale) r.zero_point)⟩

/-- num_blocks = (size + block_size - 1) // block_size
(advanced_quantization.py, line 118). -/
def numBlocks (bs N : ℕ) : ℕ := (N + bs - 1) / bs

/-- The block slices of the flattened data: block i is
flat[i * bs : min((i + 1) * bs, size)] (advanced_quantization.py,
lines 124-127). -/
def blocksOf (flat : List ℚ) (bs : ℕ) : List (List ℚ) :=
  (List.range (numBlocks bs flat.length)).map (fun i => (flat.drop (i * bs)).take bs)

/-- The per-block body of quantize_block_wise (advanced_quantization.py,
lines 129-144): if w_max == w_min then scale = 1.0 and zero_point = w_min,
else the usual int8 parameters; codes round(v / scale + zero_point) cast to
int8. -/
def quantize_block (block : List ℚ) : Option (List ℤ × ℚ × ℚ) :=
  match listMin block, listMax block with
  | some wmin, some wmax =>
    let p := if wmax = wmin then ((1 : ℚ), wmin)
             else (qdiv (qsub wmax wmin) 254,
                   qsub (-127) (qdiv wmin (qdiv (qsub wmax wmin) 254)))
    some (block.map (fun v => wrapInt8 (roundHE (qadd (qdiv v p.1) p.2))), p.1, p.2)
  | _, _ => none

/-- Maps an Option-valued function over a list, failing if any element fails
(the Option analogue of the loop over blocks). -/
def mapOption {α β : Type} (f : α → Option β) : List α → Option (List β)
  | [] => some []
  | x :: xs =>
    match f x, mapOption f xs with
    | some y, some ys => some (y :: ys)
    | _, _ => none

/-- The dict returned by the block path of quantize_block_wise
(advanced_quantization.py, lines 146-152). -/
structure BlockResult where
  blocks : List (List ℤ)
  scales : List ℚ
  zero_points : List ℚ
  shape : List ℕ
  block_size : ℕ
  deriving DecidableEq

/-- quantize_block_wise returns either the whole-tensor int8 dict (for inputs
smaller than the block size, line 114-115: return quantize_int8(weights), 8)
or the per-block dict. -/
inductive BlockWiseResult where
  | whole (r : Int8Result)
  | blocks (b : BlockResult)
  deriving DecidableEq

/-- quantize_block_wise (advanced_quantization.py, lines 110-152). -/
def quantize_block_wise (t : Tensor) (bs : ℕ) : Option BlockWiseResult :=
  if t.data.length < bs then (quantize_int8 t).map BlockWiseResult.whole
  else
    match mapOption quantize_block (blocksOf t.data bs) with
    | some qs => some (.blocks ⟨qs.map (fun p => p.1), qs.map (fun p => p.2.1),
                               qs.map (fun p => p.2.2), t.shape, bs⟩)
    | none => none

/-- Modelled from the spec: the source has no block-wise decoder; per the
spec's glossary each block is inverted by value = (code - zero_point) * scale
with its own parameters, and the blocks are concatenated. -/
def dequantize_blocks (b : BlockResult) : Tensor :=
  ⟨b.shape, ((b.blocks.zip (b.scales.zip b.zero_points)).map
      (fun p => p.1.map (fun c : ℤ => qmul (qsub (c : ℚ) p.2.2) p.2.1))).flatten⟩

/-- The quantization schemes appearing across the scripts (spec section 3). -/
inductive Scheme where
  | passthrough
  | float16
  | int8Linear
  | int4Packed
  deriving DecidableEq

/-- Python's substring containment (the `in` operator on strings), on
character lists. -/
def containsSub (needle : List Char) : List Char → Bool
  | [] => needle.isEmpty
  | h :: t => needle.isPrefixOf (h :: t) || containsSub needle t

/-- The critical-layer name fragments of quantize_mixed_precision
(advanced_quantization.py, lines 76-80). -/
def critical_layers : List String :=
  ["encoder.conv1", "encoder.conv2", "decoder.token_embedding", "decoder.ln"]

/-- is_critical = any(critical in layer_name for critical in critical_layers)
(advanced_quantization.py, line 82). -/
def is_critical (name : String) : Bool :=
  critical_layers.any (fun c => containsSub c.data name.data)

/-- The scheme chosen by quantize_mixed_precision (advanced_quantization.py,
lines 70-89): Int8 for critical layer names, Int4 for everything else; the
name is the only input considered. -/
def quantize_mixed_precision_scheme (name : String) : Scheme :=
  if is_critical name then .int8Linear else .int4Packed

/-- The scheme chosen by mixed_precision_quantization
(mixed_precision_quantization.py, lines 58-110) for a float32 tensor:
rank >= 2 and more than 1000 elements -> int8; more than one element ->
float16; otherwise kept as-is (passthrough). -/
def mixed_precision_select (shape : List ℕ) (numel : ℕ) : Scheme :=
  if 2 ≤ shape.length ∧ 1000 < numel then .int8Linear
  else if 1 < numel then .float16
  else .passthrough

/-- The selection policy exactly as the specification words it (spec section
4.1), for comparison with the selectors implemented in the source; the
default global mode (Int8Linear) is assumed. -/
def select_spec (name : String) (shape : List ℕ) (numel : ℕ) : Scheme :=
  if numel ≤ 1 then .passthrough
  else if shape.length < 2 then .float16
  else if is_critical name then .int8Linear
  else if 1000 < numel then .int8Linear
  else .float16

/-- One stored parameter entry of the mixed-precision checkpoint
(mixed_precision_quantization.py, lines 74-80, 92-95, 105-108): a dtype tag
string, the stored numbers, and the affine parameters (meaningful for int8
entries only). -/
structure StoredEntry where
  dtype : String
  weights : List ℚ
  scale : ℚ
  zero_point : ℚ
  deriving DecidableEq

/-- The per-entry dispatch of load_mixed_precision_model
(mixed_precision_quantization.py, lines 184-201): 'int8' entries are affinely
dequantized, 'float16' entries are widened (value-preserving), and any other
tag falls into the final else branch and is returned unchanged. -/
def load_entry (e : StoredEntry) : List ℚ :=
  if e.dtype = "int8" then e.weights.map (fun w => qmul (qsub w e.zero_point) e.scale)
  else if e.dtype = "float16" then e.weights
  else e.weights

/-- The outcome of a decode as the specification describes it: either decoded
values or the CorruptPayload error. -/
inductive DecodeResult where
  | ok (values : List ℚ)
  | corruptPayload
  deriving DecidableEq

/-- Decoding exactly as the specification words it (spec sections 7 and 8):
a record with an unrecognized scheme tag signals CorruptPayload instead of
being passed through. -/
def load_entry_spec (e : StoredEntry) : DecodeResult :=
  if e.dtype = "int8" then
    .ok (e.weights.map (fun w => qmul (qsub w e.zero_point) e.scale))
  else if e.dtype = "float16" then .ok e.weights
  else .corruptPayload

/-- weights.nbytes for a float32 tensor: 4 bytes per element
(advanced_quantization.py, line 167). -/
def tensor_nbytes (t : Tensor) : ℕ := t.data.length * 4

/-- One loop step of the int8 reporter of advanced_quantization
(advanced_quantization.py, lines 164-215, method "int8"): float32 tensors of
rank >= 2 are quantized and counted as N + 16 bytes (weights.nbytes + 16,
line 176); everything else is counted unchanged on both sides. The
accumulator is (total_original_size, total_quantized_size). -/
def advanced_step (acc : ℕ × ℕ) (t : Tensor) : ℕ × ℕ :=
  if 2 ≤ t.shape.length then
    (acc.1 + tensor_nbytes t, acc.2 + (t.data.length + 16))
  else
    (acc.1 + tensor_nbytes t, acc.2 + tensor_nbytes t)

/-- The totals accumulated over the catalog (advanced_quantization.py,
lines 161-162, 202-203, 213-215). -/
def advanced_totals (catalog : List Tensor) : ℕ × ℕ :=
  catalog.foldl advanced_step (0, 0)

/-- overall_compression = total_original_size / total_quantized_size
(advanced_quantization.py, line 217). -/
def advanced_overall_compression (catalog : List Tensor) : ℚ :=
  qdiv ((advanced_totals catalog).1 : ℚ) ((advanced_totals catalog).2 : ℚ)

/-- Space saved = total_original_size - total_quantized_size
(advanced_quantization.py, line 222). -/
def advanced_space_saved (catalog : List Tensor) : ℤ :=
  ((advanced_totals catalog).1 : ℤ) - ((advanced_totals catalog).2 : ℤ)

/-- original_size = 1457 # MB (from cache) — the hardcoded prior model size
used by the cross-method summary (advanced_quantization.py, line 281). -/
def compare_original_size_mb : ℚ := 1457

/-- compression = original_size / size in the cross-method summary
(advanced_quantization.py, line 285). -/
def compare_compression (file_size_mb : ℚ) : ℚ :=
  qdiv compare_original_size_mb file_size_mb

/-- savings = original_size - size in the cross-method summary
(advanced_quantization.py, line 286). -/
def compare_savings (file_size_mb : ℚ) : ℚ :=
  qsub compare_original_size_mb file_size_mb

/-- quantized_size for the int8 method: weights.nbytes + 16
(advanced_quantization.py, line 176). -/
def int8_quantized_size (r : Int8Result) : ℕ := r.weights.length + 16

/-- quantized_size for the int4 method: packed_weights.nbytes + 16
(advanced_quantization.py, line 171). -/
def int4_quantized_size (r : Int4Result) : ℕ := r.packed.length + 16

lemma mem_zip_map {α β : Type} (f : α → β) :
    ∀ (l : List α) (p : α × β), p ∈ l.zip (l.map f) → p.1 ∈ l ∧ p.2 = f p.1 := by
  intro l
  induction l with
  | nil => intro p hp; cases hp
  | cons x xs ih =>
    intro p hp
    rw [List.map_cons, List.zip_cons_cons] at hp
    rcases List.mem_cons.mp hp with h | h
    · subst h; exact ⟨List.mem_cons_self x xs, rfl⟩
    · obtain ⟨h1, h2⟩ := ih p h
      exact ⟨List.mem_cons_of_mem x h1, h2⟩

/-- The decoded list has the same length as the original and each decoded
value is within s of the original value. -/
def errWithin (orig dec : List ℚ) (s : ℚ) : Prop :=
  dec.length = orig.length ∧ ∀ p ∈ orig.zip dec, qabs (qsub p.2 p.1) ≤ s

instance (orig dec : List ℚ) (s : ℚ) : Decidable (errWithin orig dec s) := by
  unfold errWithin
  exact instDecidableAnd

lemma errWithin_map {l : List ℚ} {g : ℚ → ℚ} {s : ℚ}
    (h : ∀ v ∈ l, |g v - v| ≤ s) : errWithin l (l.map g) s := by
  constructor
  · exact l.length_map g
  · intro p hp
    obtain ⟨h1, h2⟩ := mem_zip_map g l p hp
    rw [qabs_eq, qsub_eq, h2]
    exact h p.1 h1

lemma quantize_int8_some {t : Tensor} {r : Int8Result} (h : quantize_int8 t = some r) :
    ∃ wmin wmax, listMin t.data = some wmin ∧ listMax t.data = some wmax ∧
      wmin < wmax ∧
      r.scale = (wmax - wmin) / 254 ∧
      r.zero_point = -127 - wmin / r.scale ∧
      r.shape = t.shape ∧
      r.weights = t.data.map (fun v => wrapInt8 (roundHE (v / r.scale + r.zero_point))) := by
  unfold quantize_int8 at h
  cases hmin : listMin t.data with
  | none => rw [hmin] at h; cases h
  | some wmin =>
    cases hmax : listMax t.data with
    | none => rw [hmin, hmax] at h; cases h
    | some wmax =>
      rw [hmin, hmax] at h
      dsimp only at h
      by_cases hs : qdiv (qsub wmax wmin) 254 = 0
      · rw [if_pos hs] at h; cases h
      · rw [if_neg hs] at h
        injection h with h'
        subst h'
        rw [qdiv_eq, qsub_eq] at hs
        have hne : wmax - wmin ≠ 0 := by
          intro h0
          exact hs (by rw [h0]; norm_num)
        have hlt : wmin < wmax :=
          lt_of_le_of_ne (listMin_le_listMax hmin hmax) (fun he => hne (by rw [he]; ring))
        refine ⟨wmin, wmax, rfl, rfl, hlt, ?_, ?_, rfl, ?_⟩
        · dsimp only
          simp only [qdiv_eq, qsub_eq]
        · dsimp only
          simp only [qsub_eq, qdiv_eq]
        · dsimp only
          simp only [qadd_eq, qdiv_eq, qsub_eq]

/-- Elementwise facts about the int8 affine code of a value v in
[wmin, wmax] when wmin < wmax: the rounded code needs no wrapping, lies in
[-127, 127], and decodes to within scale/2 of v. -/
lemma int8_elem_bound {wmin wmax v s zp : ℚ} (h1 : wmin ≤ v) (h2 : v ≤ wmax)
    (hlt : wmin < wmax) (hs : s = (wmax - wmin) / 254) (hzp : zp = -127 - wmin / s) :
    wrapInt8 (roundHE (v / s + zp)) = roundHE (v / s + zp) ∧
    -127 ≤ roundHE (v / s + zp) ∧ roundHE (v / s + zp) ≤ 127 ∧
    |((roundHE (v / s + zp) : ℚ) - zp) * s - v| ≤ s / 2 := by
  have hspos : 0 < s := by
    rw [hs]
    have : 0 < wmax - wmin := by linarith
    positivity
  have hx : v / s + zp = (v - wmin) / s - 127 := by
    rw [hzp, sub_div]
    ring
  have h254 : wmax - wmin = 254 * s := by
    rw [hs]; ring
  have hx0 : (0 : ℚ) ≤ (v - wmin) / s := div_nonneg (by linarith) hspos.le
  have hx254 : (v - wmin) / s ≤ 254 := by
    rw [div_le_iff₀ hspos]; linarith
  have hlo : ((-127 : ℤ) : ℚ) ≤ v / s + zp := by
    rw [hx]; push_cast; linarith
  have hhi : v / s + zp ≤ ((127 : ℤ) : ℚ) := by
    rw [hx]; push_cast; linarith
  obtain ⟨hrlo, hrhi⟩ := roundHE_bounds hlo hhi
  have hwrap : wrapInt8 (roundHE (v / s + zp)) = roundHE (v / s + zp) :=
    wrapInt8_eq_self (by omega) hrhi
  refine ⟨hwrap, hrlo, hrhi, ?_⟩
  have habs := abs_roundHE_sub_le (v / s + zp)
  have hdm : v / s * s = v := div_mul_cancel₀ v hspos.ne'
  have hcalc : ((roundHE (v / s + zp) : ℚ) - zp) * s - v
      = ((roundHE (v / s + zp) : ℚ) - (v / s + zp)) * s := by
    linear_combination hdm
  rw [hcalc, abs_mul, abs_of_pos hspos]
  calc |(roundHE (v / s + zp) : ℚ) - (v / s + zp)| * s
      ≤ (1 / 2) * s := mul_le_mul_of_nonneg_right habs hspos.le
    _ = s / 2 := by ring

/-- Elementwise facts about the int4 affine code of a value v in
[wmin, wmax] when wmin < wmax: neither the uint8 cast nor the clip changes
the rounded code, which lies in [0, 15] and decodes to within scale/2 of v. -/
lemma int4_elem_bound {wmin wmax v s : ℚ} (h1 : wmin ≤ v) (h2 : v ≤ wmax)
    (hlt : wmin < wmax) (hs : s = (wmax - wmin) / 15) :
    clip0_15 (wrapUInt8 (roundHE ((v - wmin) / s))) = roundHE ((v - wmin) / s) ∧
    0 ≤ roundHE ((v - wmin) / s) ∧ roundHE ((v - wmin) / s) ≤ 15 ∧
    |((roundHE ((v - wmin) / s) : ℚ) * s + wmin) - v| ≤ s / 2 := by
  have hspos : 0 < s := by
    rw [hs]
    have : 0 < wmax - wmin := by linarith
    positivity
  have h15 : wmax - wmin = 15 * s := by rw [hs]; ring
  have hx0 : ((0 : ℤ) : ℚ) ≤ (v - wmin) / s := div_nonneg (by linarith) hspos.le
  have hx15 : (v - wmin) / s ≤ ((15 : ℤ) : ℚ) := by
    push_cast
    rw [div_le_iff₀ hspos]; linarith
  obtain ⟨hrlo, hrhi⟩ := roundHE_bounds hx0 hx15
  have hwrap : wrapUInt8 (roundHE ((v - wmin) / s)) = roundHE ((v - wmin) / s) :=
    wrapUInt8_eq_self hrlo (by omega)
  have hclip : clip0_15 (wrapUInt8 (roundHE ((v - wmin) / s))) = roundHE ((v - wmin) / s) := by
    rw [hwrap]
    exact clip0_15_eq_self hrlo hrhi
  refine ⟨hclip, hrlo, hrhi, ?_⟩
  have habs := abs_roundHE_sub_le ((v - wmin) / s)
  have hdm : (v - wmin) / s * s = v - wmin := div_mul_cancel₀ _ hspos.ne'
  have hcalc : ((roundHE ((v - wmin) / s) : ℚ) * s + wmin) - v
      = ((roundHE ((v - wmin) / s) : ℚ) - (v - wmin) / s) * s := by
    linear_combination hdm
  rw [hcalc, abs_mul, abs_of_pos hspos]
  calc |(roundHE ((v - wmin) / s) : ℚ) - (v - wmin) / s| * s
      ≤ (1 / 2) * s := mul_le_mul_of_nonneg_right habs hspos.le
    _ = s / 2 := by ring

lemma quantize_int4_some {t : Tensor} {r : Int4Result} (h : quantize_int4 t = some r) :
    ∃ wmin wmax, listMin t.data = some wmin ∧ listMax t.data = some wmax ∧
      wmin < wmax ∧
      r.scale = (wmax - wmin) / 15 ∧
      r.zero_point = wmin ∧
      r.shape = t.shape ∧
      r.original_size = t.data.length ∧
      r.packed = packNibbles (t.data.map
        (fun v => clip0_15 (wrapUInt8 (roundHE ((v - wmin) / r.scale))))) := by
  unfold quantize_int4 at h
  cases hmin : listMin t.data with
  | none => rw [hmin] at h; cases h
  | some wmin =>
    cases hmax : listMax t.data with
    | none => rw [hmin, hmax] at h; cases h
    | some wmax =>
      rw [hmin, hmax] at h
      dsimp only at h
      by_cases hs : qdiv (qsub wmax wmin) 15 = 0
      · rw [if_pos hs] at h; cases h
      · rw [if_neg hs] at h
        injection h with h'
        subst h'
        rw [qdiv_eq, qsub_eq] at hs
        have hne : wmax - wmin ≠ 0 := by
          intro h0
          exact hs (by rw [h0]; norm_num)
        have hlt : wmin < wmax :=
          lt_of_le_of_ne (listMin_le_listMax hmin hmax) (fun he => hne (by rw [he]; ring))
        refine ⟨wmin, wmax, rfl, rfl, hlt, ?_, rfl, rfl, rfl, ?_⟩
        · dsimp only
          simp only [qdiv_eq, qsub_eq]
        · dsimp only
          simp only [qdiv_eq, qsub_eq]

lemma quantize_block_some {bl : List ℚ} {codes : List ℤ} {s zp : ℚ}
    (h : quantize_block bl = some (codes, s, zp)) :
    ∃ wmin wmax, listMin bl = some wmin ∧ listMax bl = some wmax ∧
      codes = bl.map (fun v => wrapInt8 (roundHE (v / s + zp))) ∧
      ((wmax = wmin ∧ s = 1 ∧ zp = wmin) ∨
       (wmin < wmax ∧ s = (wmax - wmin) / 254 ∧ zp = -127 - wmin / s)) := by
  unfold quantize_block at h
  cases hmin : listMin bl with
  | none => rw [hmin] at h; cases h
  | some wmin =>
    cases hmax : listMax bl with
    | none => rw [hmin, hmax] at h; cases h
    | some wmax =>
      rw [hmin, hmax] at h
      dsimp only at h
      by_cases hdeg : wmax = wmin
      · rw [if_pos hdeg] at h
        injection h with h'
        simp only [Prod.mk.injEq] at h'
        obtain ⟨hc, hsv, hzv⟩ := h'
        refine ⟨wmin, wmax, rfl, rfl, ?_, Or.inl ⟨hdeg, hsv.symm, hzv.symm⟩⟩
        rw [← hc, ← hsv, ← hzv]
        apply List.map_congr_left
        intro v _
        simp only [qadd_eq, qdiv_eq]
      · rw [if_neg hdeg] at h
        injection h with h'
        simp only [Prod.mk.injEq] at h'
        obtain ⟨hc, hsv, hzv⟩ := h'
        have hle := listMin_le_listMax hmin hmax
        have hlt : wmin < wmax := lt_of_le_of_ne hle (fun he => hdeg he.symm)
        refine ⟨wmin, wmax, rfl, rfl, ?_, Or.inr ⟨hlt, ?_, ?_⟩⟩
        · rw [← hc, ← hsv, ← hzv]
          apply List.map_congr_left
          intro v _
          simp only [qadd_eq, qdiv_eq]
        · rw [← hsv]
          simp only [qdiv_eq, qsub_eq]
        · rw [← hzv, ← hsv]
          simp only [qsub_eq, qdiv_eq]

lemma quantize_block_of_ne_nil {bl : List ℚ} (h : bl ≠ []) :
    ∃ p, quantize_block bl = some p := by
  obtain ⟨m, hm⟩ := listMin_of_ne_nil h
  obtain ⟨M, hM⟩ := listMax_of_ne_nil h
  unfold quantize_block
  rw [hm, hM]
  exact ⟨_, rfl⟩

/-- Round trip of one block of quantize_block_wise: each decoded value is
within the block's scale of the original, provided any degenerate
(all-equal) block has a code that fits in int8. -/
lemma quantize_block_roundtrip {bl : List ℚ} {codes : List ℤ} {s zp : ℚ}
    (h : quantize_block bl = some (codes, s, zp))
    (hdeg : listMin bl = listMax bl →
      ∀ c ∈ bl, -128 ≤ roundHE (qadd c c) ∧ roundHE (qadd c c) ≤ 127) :
    errWithin bl (codes.map (fun cd : ℤ => qmul (qsub (cd : ℚ) zp) s)) s := by
  obtain ⟨wmin, wmax, hmin, hmax, hcodes, hcase⟩ := quantize_block_some h
  subst hcodes
  rw [List.map_map]
  rcases hcase with ⟨hdegc, hsv, hzv⟩ | ⟨hlt, hsv, hzv⟩
  · simp only [hsv, hzv]
    have hminmax : listMin bl = listMax bl := by rw [hmin, hmax, hdegc]
    have hall : ∀ x ∈ bl, x = wmin :=
      all_eq_of_listMin_eq_listMax hmin (by rw [hmax, hdegc])
    apply errWithin_map
    intro v hv
    have hveq := hall v hv
    have hbound := hdeg hminmax v hv
    rw [qadd_eq] at hbound
    simp only [Function.comp, div_one]
    rw [hveq] at hbound ⊢
    have hwrap : wrapInt8 (roundHE (wmin + wmin)) = roundHE (wmin + wmin) :=
      wrapInt8_eq_self hbound.1 hbound.2
    rw [qmul_eq, qsub_eq, hwrap]
    have habs := abs_roundHE_sub_le (wmin + wmin)
    have he : ((roundHE (wmin + wmin) : ℚ) - wmin) * 1 - wmin
        = (roundHE (wmin + wmin) : ℚ) - (wmin + wmin) := by ring
    rw [he]
    linarith [habs]
  · have hspos : 0 < s := by
      rw [hsv]
      have : 0 < wmax - wmin := by linarith
      positivity
    apply errWithin_map
    intro v hv
    have h1 := listMin_le hmin hv
    have h2 := le_listMax hmax hv
    obtain ⟨hwrap, _, _, herr⟩ := int8_elem_bound h1 h2 hlt hsv hzv
    simp only [Function.comp]
    rw [qmul_eq, qsub_eq, hwrap]
    calc |((roundHE (v / s + zp) : ℚ) - zp) * s - v| ≤ s / 2 := herr
      _ ≤ s := by linarith

lemma packNibbles_length : ∀ codes : List ℤ,
    (packNibbles codes).length = (codes.length + 1) / 2 := by
  intro codes
  induction codes using packNibbles.induct with
  | case1 => simp [packNibbles]
  | case2 lo => simp [packNibbles]
  | case3 lo hi rest ih =>
    simp only [packNibbles, List.length_cons]
    omega

theorem unpack_packNibbles : ∀ codes : List ℤ, (∀ c ∈ codes, 0 ≤ c ∧ c < 16) →
    unpack_int4 (packNibbles codes) codes.length = codes := by
  intro codes
  induction codes using packNibbles.induct with
  | case1 => intro _; rfl
  | case2 lo =>
    intro h
    obtain ⟨h1, h2⟩ := h lo (List.mem_singleton.mpr rfl)
    have e1 : lo % 16 = lo := by omega
    simp [packNibbles, unpack_int4, e1]
  | case3 lo hi rest ih =>
    intro h
    obtain ⟨hlo1, hlo2⟩ := h lo (List.mem_cons_self lo (hi :: rest))
    obtain ⟨hhi1, hhi2⟩ := h hi (by simp)
    have hrest : ∀ c ∈ rest, 0 ≤ c ∧ c < 16 := fun c hc => h c (by simp [hc])
    have e1 : (16 * hi + lo) % 16 = lo := by omega
    have e2 : (16 * hi + lo) / 16 = hi := by omega
    simp only [packNibbles, List.length_cons]
    show unpack_int4 ((16 * hi + lo) :: packNibbles rest) (rest.length + 1 + 1) = lo :: hi :: rest
    have hu : unpack_int4 ((16 * hi + lo) :: packNibbles rest) (rest.length + 2)
        = (16 * hi + lo) % 16 :: (16 * hi + lo) / 16 :: unpack_int4 (packNibbles rest) rest.length := rfl
    rw [show rest.length + 1 + 1 = rest.length + 2 from rfl, hu, e1, e2, ih hrest]

lemma packNibbles_getD : ∀ (codes : List ℤ) (i : ℕ), i < (packNibbles codes).length →
    (packNibbles codes).getD i 0 = codes.getD (2 * i) 0 + 16 * codes.getD (2 * i + 1) 0 := by
  intro codes
  induction codes using packNibbles.induct with
  | case1 => intro i hi; cases hi
  | case2 lo =>
    intro i hi
    have hi0 : i = 0 := by
      simp only [packNibbles, List.length_singleton] at hi
      omega
    subst hi0
    simp [packNibbles]
  | case3 lo hi rest ih =>
    intro i hlen
    cases i with
    | zero =>
      simp [packNibbles]
      ring
    | succ j =>
      have e1 : 2 * (j + 1) = (2 * j + 1) + 1 := by ring
      rw [e1]
      simp only [packNibbles, List.getD_cons_succ]
      apply ih
      simp only [packNibbles, List.length_cons] at hlen
      omega

lemma mapOption_eq_forall₂ {α β : Type} {f : α → Option β} :
    ∀ {l : List α} {ys : List β}, mapOption f l = some ys →
      List.Forall₂ (fun a b => f a = some b) l ys := by
  intro l
  induction l with
  | nil =>
    intro ys h
    injection h with h'
    rw [← h']
    exact List.Forall₂.nil
  | cons x xs ih =>
    intro ys h
    unfold mapOption at h
    cases hfx : f x with
    | none => rw [hfx] at h; cases h
    | some y =>
      cases hxs : mapOption f xs with
      | none => rw [hfx, hxs] at h; cases h
      | some ys' =>
        rw [hfx, hxs] at h
        dsimp only at h
        injection h with h'
        rw [← h']
        exact List.Forall₂.cons hfx (ih hxs)

lemma mapOption_of_forall {α β : Type} {f : α → Option β} :
    ∀ {l : List α}, (∀ x ∈ l, ∃ y, f x = some y) → ∃ ys, mapOption f l = some ys := by
  intro l
  induction l with
  | nil => intro _; exact ⟨[], rfl⟩
  | cons x xs ih =>
    intro h
    obtain ⟨y, hy⟩ := h x (List.mem_cons_self x xs)
    obtain ⟨ys, hys⟩ := ih (fun z hz => h z (List.mem_cons_of_mem x hz))
    refine ⟨y :: ys, ?_⟩
    unfold mapOption
    rw [hy, hys]

lemma zip_proj (qs : List (List ℤ × ℚ × ℚ)) :
    (qs.map (fun p => p.1)).zip ((qs.map (fun p => p.2.1)).zip (qs.map (fun p => p.2.2)))
      = qs := by
  induction qs with
  | nil => rfl
  | cons a l ih => simp [ih]

lemma numBlocks_succ (bs N : ℕ) (hbs : 0 < bs) (hN : 0 < N) :
    numBlocks bs N = numBlocks bs (N - bs) + 1 := by
  unfold numBlocks
  rcases le_or_lt N bs with hle | hlt
  · have h1 : N - bs = 0 := by omega
    rw [h1]
    have h2 : (0 + bs - 1) / bs = 0 := Nat.div_eq_of_lt (by omega)
    have h3 : (N + bs - 1) / bs = 1 :=
      Nat.div_eq_of_lt_le (by omega) (by omega)
    omega
  · have h1 : N - bs + bs - 1 = N - 1 := by omega
    have h2 : N + bs - 1 = (N - 1) + bs := by omega
    rw [h1, h2, Nat.add_div_right _ hbs]

lemma numBlocks_zero (bs : ℕ) (hbs : 0 < bs) : numBlocks bs 0 = 0 := by
  unfold numBlocks
  exact Nat.div_eq_of_lt (by omega)

lemma blocksOf_nil (bs : ℕ) (hbs : 0 < bs) : blocksOf [] bs = [] := by
  unfold blocksOf
  rw [List.length_nil, numBlocks_zero bs hbs]
  rfl

lemma blocksOf_cons {bs : ℕ} (hbs : 0 < bs) {l : List ℚ} (hl : l ≠ []) :
    blocksOf l bs = l.take bs :: blocksOf (l.drop bs) bs := by
  unfold blocksOf
  have hN : 0 < l.length := List.length_pos.mpr hl
  rw [List.length_drop, numBlocks_succ bs l.length hbs hN, List.range_succ_eq_map,
    List.map_cons, List.map_map]
  congr 1
  · rw [Nat.zero_mul, List.drop_zero]
  · apply List.map_congr_left
    intro i _
    simp only [Function.comp]
    rw [List.drop_drop, Nat.succ_mul, Nat.add_comm (i * bs) bs]

lemma blocksOf_flatten {bs : ℕ} (hbs : 0 < bs) (l : List ℚ) :
    (blocksOf l bs).flatten = l := by
  suffices H : ∀ (n : ℕ) (l : List ℚ), l.length ≤ n → (blocksOf l bs).flatten = l from
    H l.length l (le_refl _)
  intro n
  induction n with
  | zero =>
    intro l hl
    have : l = [] := List.eq_nil_of_length_eq_zero (Nat.le_zero.mp hl)
    subst this
    rw [blocksOf_nil bs hbs]
    rfl
  | succ n ih =>
    intro l hl
    by_cases hnil : l = []
    · subst hnil
      rw [blocksOf_nil bs hbs]
      rfl
    · rw [blocksOf_cons hbs hnil, List.flatten_cons]
      rw [ih (l.drop bs) (by rw [List.length_drop]; omega)]
      exact List.take_append_drop bs l

lemma blocksOf_mem_ne_nil {bs : ℕ} (hbs : 0 < bs) {l : List ℚ} {bl : List ℚ}
    (h : bl ∈ blocksOf l bs) : bl ≠ [] := by
  unfold blocksOf at h
  rw [List.mem_map] at h
  obtain ⟨i, hi, rfl⟩ := h
  rw [List.mem_range] at hi
  have hmul : (i + 1) * bs ≤ l.length + bs - 1 := by
    have := (Nat.le_div_iff_mul_le hbs).mp (Nat.succ_le_of_lt hi)
    exact this
  have hN : 0 < l.length := by
    rcases Nat.eq_zero_or_pos l.length with h0 | hpos
    · rw [h0, numBlocks_zero bs hbs] at hi
      exact absurd hi (Nat.not_lt_zero i)
    · exact hpos
  have hprod : i * bs < l.length := by
    have h2 : i * bs + bs ≤ l.length + bs - 1 := by
      calc i * bs + bs = (i + 1) * bs := by ring
        _ ≤ l.length + bs - 1 := hmul
    omega
  intro hnil
  have : ((l.drop (i * bs)).take bs).length = 0 := by rw [hnil]; rfl
  rw [List.length_take, List.length_drop] at this
  omega

lemma blocksOf_map_length (l : List ℚ) (bs : ℕ) :
    (blocksOf l bs).map List.length
      = (List.range (numBlocks bs l.length)).map (fun i => min bs (l.length - i * bs)) := by
  unfold blocksOf
  rw [List.map_map]
  apply List.map_congr_left
  intro i _
  simp only [Function.comp]
  rw [List.length_take, List.length_drop]

/-- Characterization of the block path of quantize_block_wise. -/
lemma quantize_block_wise_blocks {t : Tensor} {bs : ℕ} {b : BlockResult}
    (h : quantize_block_wise t bs = some (.blocks b)) :
    bs ≤ t.data.length ∧
    ∃ qs, mapOption quantize_block (blocksOf t.data bs) = some qs ∧
      b = ⟨qs.map (fun p => p.1), qs.map (fun p => p.2.1),
           qs.map (fun p => p.2.2), t.shape, bs⟩ := by
  unfold quantize_block_wise at h
  split_ifs at h with hlt
  · exfalso
    cases hq : quantize_int8 t with
    | none => rw [hq] at h; cases h
    | some r =>
      rw [hq] at h
      dsimp only [Option.map] at h
      injection h with h'
      cases h'
  · refine ⟨not_lt.mp hlt, ?_⟩
    cases hq : mapOption quantize_block (blocksOf t.data bs) with
    | none => rw [hq] at h; cases h
    | some qs =>
      rw [hq] at h
      dsimp only at h
      injection h with h'
      injection h' with h''
      exact ⟨qs, rfl, h''.symm⟩

/-- The int8 round trip reproduces the shape and stays within the scale. -/
def int8RoundtripOk (t : Tensor) (r : Int8Result) : Prop :=
  (dequantize_int8 r).shape = t.shape ∧ errWithin t.data (dequantize_int8 r).data r.scale

instance (t : Tensor) (r : Int8Result) : Decidable (int8RoundtripOk t r) := by
  unfold int8RoundtripOk
  exact instDecidableAnd

/-- The int4 round trip reproduces the shape and stays within the scale. -/
def int4RoundtripOk (t : Tensor) (r : Int4Result) : Prop :=
  (dequantize_int4 r).shape = t.shape ∧ errWithin t.data (dequantize_int4 r).data r.scale

instance (t : Tensor) (r : Int4Result) : Decidable (int4RoundtripOk t r) := by
  unfold int4RoundtripOk
  exact instDecidableAnd

/-- Every all-equal block of the input has a degenerate-path code
round(c + c) that fits in int8 (without this the int8 cast wraps). -/
def blocksDegenerateOk (data : List ℚ) (bs : ℕ) : Prop :=
  ∀ bl ∈ blocksOf data bs, listMin bl = listMax bl →
    ∀ c ∈ bl, -128 ≤ roundHE (qadd c c) ∧ roundHE (qadd c c) ≤ 127

instance (data : List ℚ) (bs : ℕ) : Decidable (blocksDegenerateOk data bs) := by
  unfold blocksDegenerateOk
  exact List.decidableBAll _ _

/-- The block-wise round trip reproduces the shape and each block decodes
to within its own scale. -/
def blockRoundtripOk (t : Tensor) (bs : ℕ) (b : BlockResult) : Prop :=
  (dequantize_blocks b).shape = t.shape ∧
  ∀ p ∈ (blocksOf t.data bs).zip (b.blocks.zip (b.scales.zip b.zero_points)),
    errWithin p.1 (p.2.1.map (fun cd : ℤ => qmul (qsub (cd : ℚ) p.2.2.2) p.2.2.1)) p.2.2.1

instance (t : Tensor) (bs : ℕ) (b : BlockResult) : Decidable (blockRoundtripOk t bs b) := by
  unfold blockRoundtripOk
  exact instDecidableAnd

/-- Claim C1 (counterexample): the round-trip-within-scale property fails as
stated. For the 2-element all-equal tensor [100, 100] under BlockInt8 with
block_size 2, the degenerate-range path computes code round(100/1 + 100) =
200, the int8 cast silently wraps it to -56, and the block decodes to -156:
an error of 256, far above the block's scale 1. -/
theorem c1_counterexample :
    quantize_block_wise ⟨[2], [100, 100]⟩ 2
      = some (.blocks ⟨[[-56, -56]], [1], [100], [2], 2⟩) ∧
    ¬ errWithin [100, 100] (dequantize_blocks ⟨[[-56, -56]], [1], [100], [2], 2⟩).data 1 := by
  decide

/-- Claim C1 (amended): whenever encoding succeeds finitely — which for
Int8Linear and Int4Packed means the tensor is non-empty with w_min < w_max,
since an all-equal tensor drives a division by zero — decoding the encoding
yields a tensor of identical shape whose elementwise absolute difference
from the input is at most the scheme's scale for that tensor, and for
BlockInt8 at most the block's own scale, provided every all-equal block's
degenerate-path code round(2c) fits in int8 (otherwise the cast wraps, as
the counterexample shows). -/
theorem c1_roundtrip_within_scale :
    (∀ (t : Tensor) (r : Int8Result), quantize_int8 t = some r → int8RoundtripOk t r) ∧
    (∀ (t : Tensor) (r : Int4Result), quantize_int4 t = some r → int4RoundtripOk t r) ∧
    (∀ (t : Tensor) (bs : ℕ) (b : BlockResult),
      quantize_block_wise t bs = some (.blocks b) →
      blocksDegenerateOk t.data bs → blockRoundtripOk t bs b) := by
  refine ⟨?_, ?_, ?_⟩
  · intro t r h
    obtain ⟨wmin, wmax, hmin, hmax, hlt, hs, hzp, hshape, hw⟩ := quantize_int8_some h
    have hspos : 0 < r.scale := by
      rw [hs]
      have : 0 < wmax - wmin := by linarith
      positivity
    unfold int8RoundtripOk dequantize_int8
    dsimp only
    constructor
    · exact hshape
    · rw [hw, List.map_map]
      apply errWithin_map
      intro v hv
      have h1 := listMin_le hmin hv
      have h2 := le_listMax hmax hv
      obtain ⟨hwrap, _, _, herr⟩ := int8_elem_bound h1 h2 hlt hs hzp
      simp only [Function.comp]
      rw [qmul_eq, qsub_eq, hwrap]
      linarith [herr]
  · intro t r h
    obtain ⟨wmin, wmax, hmin, hmax, hlt, hs, hzp, hshape, hos, hpacked⟩ := quantize_int4_some h
    have hspos : 0 < r.scale := by
      rw [hs]
      have : 0 < wmax - wmin := by linarith
      positivity
    have hcodes : ∀ c ∈ t.data.map
        (fun v => clip0_15 (wrapUInt8 (roundHE ((v - wmin) / r.scale)))), 0 ≤ c ∧ c < 16 := by
      intro c hc
      rw [List.mem_map] at hc
      obtain ⟨v, hv, rfl⟩ := hc
      have h1 := listMin_le hmin hv
      have h2 := le_listMax hmax hv
      obtain ⟨hclip, hlo, hhi, _⟩ := int4_elem_bound h1 h2 hlt hs
      rw [hclip]
      exact ⟨hlo, by omega⟩
    have hunpack : unpack_int4 r.packed r.original_size
        = t.data.map (fun v => clip0_15 (wrapUInt8 (roundHE ((v - wmin) / r.scale)))) := by
      rw [hpacked, hos]
      have hlen : t.data.length = (t.data.map
          (fun v => clip0_15 (wrapUInt8 (roundHE ((v - wmin) / r.scale))))).length := by
        rw [List.length_map]
      rw [hlen]
      exact unpack_packNibbles _ hcodes
    unfold int4RoundtripOk dequantize_int4
    dsimp only
    constructor
    · exact hshape
    · rw [hunpack, List.map_map]
      apply errWithin_map
      intro v hv
      have h1 := listMin_le hmin hv
      have h2 := le_listMax hmax hv
      obtain ⟨hclip, _, _, herr⟩ := int4_elem_bound h1 h2 hlt hs
      simp only [Function.comp]
      rw [hclip, qadd_eq, qmul_eq, hzp]
      linarith [herr]
  · intro t bs b h hdeg
    obtain ⟨hge, qs, hqs, hb⟩ := quantize_block_wise_blocks h
    have hF := mapOption_eq_forall₂ hqs
    unfold blockRoundtripOk dequantize_blocks
    dsimp only
    constructor
    · rw [hb]
    · intro p hp
      rw [hb] at hp
      dsimp only at hp
      rw [zip_proj] at hp
      have hmem := List.of_mem_zip hp
      have hq : quantize_block p.1 = some p.2 := (List.forall₂_iff_zip.mp hF).2 hp
      have hdeg' := hdeg p.1 hmem.1
      exact @quantize_block_roundtrip p.1 p.2.1 p.2.2.1 p.2.2.2 hq hdeg'

/-- Claim C1 (witness): the amended round-trip theorem applied to concrete
tensors under each of the three schemes. -/
theorem c1_witness :
    int8RoundtripOk ⟨[5], [0, 1, 2, 3, 4]⟩ ⟨[-127, -64, 0, 64, 127], q 2 127, -127, [5]⟩ ∧
    int4RoundtripOk ⟨[2], [0, 3]⟩ ⟨[240], q 1 5, 0, [2], 2⟩ ∧
    blockRoundtripOk ⟨[2], [5, 5]⟩ 1 ⟨[[10], [10]], [1, 1], [5, 5], [2], 1⟩ :=
  ⟨c1_roundtrip_within_scale.1 _ _ (by decide),
   c1_roundtrip_within_scale.2.1 _ _ (by decide),
   c1_roundtrip_within_scale.2.2 _ _ _ (by decide) (by decide)⟩

/-- Each stored int8 code equals the rounded value round(v / scale +
zero_point) itself, equals its clamped version (clamping is a no-op), and
lies in [-128, 127]. -/
def int8CodesClamped (t : Tensor) (r : Int8Result) : Prop :=
  ∀ p ∈ t.data.zip r.weights,
    p.2 = roundHE (qadd (qdiv p.1 r.scale) r.zero_point) ∧
    p.2 = clampInt8 (roundHE (qadd (qdiv p.1 r.scale) r.zero_point)) ∧
    -128 ≤ p.2 ∧ p.2 ≤ 127

instance (t : Tensor) (r : Int8Result) : Decidable (int8CodesClamped t r) := by
  unfold int8CodesClamped
  exact List.decidableBAll _ _

/-- Claim C2 (counterexample): on the single-element array [3.0] the
minimum equals the maximum, so scale = (w_max - w_min)/254 = 0 and
zero_point = -127 - w_min/scale divides by zero; no finite codes are
produced at all, so this input's codes are not computed as
round-then-clamp values. -/
theorem c2_counterexample : quantize_int8 ⟨[1], [3]⟩ = none := by decide

/-- Claim C2 (amended): for every input array with w_min < w_max (the only
arrays for which the encode has a finite result), each stored code equals
round(value/scale + zero_point) exactly: although the source never calls a
clamp, the exact-arithmetic codes provably lie in [-127, 127], so clamping
to [-128, 127] would be a no-op and the int8 cast never wraps. All-equal
arrays instead divide by zero and produce no finite codes. -/
theorem c2_codes_rounded_and_clamped :
    ∀ (t : Tensor) (r : Int8Result), quantize_int8 t = some r → int8CodesClamped t r := by
  intro t r h
  obtain ⟨wmin, wmax, hmin, hmax, hlt, hs, hzp, _, hw⟩ := quantize_int8_some h
  intro p hp
  rw [hw] at hp
  obtain ⟨hmem, heq⟩ := mem_zip_map _ _ _ hp
  obtain ⟨hwrap, hlo, hhi, _⟩ :=
    int8_elem_bound (listMin_le hmin hmem) (le_listMax hmax hmem) hlt hs hzp
  rw [heq, hwrap]
  simp only [qadd_eq, qdiv_eq]
  exact ⟨by trivial, (clampInt8_eq_self (by omega) hhi).symm, by omega, hhi⟩

/-- Claim C2 (witness): the amended theorem applied to a concrete tensor. -/
theorem c2_witness :
    int8CodesClamped ⟨[5], [0, 1, 2, 3, 4]⟩ ⟨[-127, -64, 0, 64, 127], q 2 127, -127, [5]⟩ :=
  c2_codes_rounded_and_clamped _ _ (by decide)

lemma listMin_const {l : List ℚ} {c : ℚ} (hne : l ≠ []) (hall : ∀ x ∈ l, x = c) :
    listMin l = some c := by
  obtain ⟨m, hm⟩ := listMin_of_ne_nil hne
  rw [hm, hall m (listMin_mem hm)]

lemma listMax_const {l : List ℚ} {c : ℚ} (hne : l ≠ []) (hall : ∀ x ∈ l, x = c) :
    listMax l = some c := by
  obtain ⟨M, hM⟩ := listMax_of_ne_nil hne
  rw [hM, hall M (listMax_mem hM)]

lemma map_const_of_all_eq {α : Type} {l : List α} {c : α} (h : ∀ x ∈ l, x = c) :
    l.map (fun _ => c) = l := by
  induction l with
  | nil => rfl
  | cons y ys ih =>
    rw [List.map_cons, h y (List.mem_cons_self y ys)]
    rw [ih (fun x hx => h x (List.mem_cons_of_mem y hx))]

/-- On an all-equal block the per-block encoder takes the guarded path:
scale 1, zero_point the constant, and every code round(c + c). -/
lemma quantize_block_const {bl : List ℚ} {c : ℚ} (hne : bl ≠ []) (hall : ∀ x ∈ bl, x = c) :
    quantize_block bl = some (bl.map (fun _ => wrapInt8 (roundHE (qadd c c))), 1, c) := by
  unfold quantize_block
  rw [listMin_const hne hall, listMax_const hne hall]
  dsimp only
  rw [if_pos rfl]
  congr 1
  congr 1
  apply List.map_congr_left
  intro v hv
  rw [hall v hv]
  congr 1
  rw [qadd_eq, qadd_eq, qdiv_eq, div_one]

/-- Claim C3 (counterexample): on the all-equal array [0.3, 0.3],
quantize_int8 (the Int8Linear encoder) has no degenerate-range path at all:
its scale is (w_max - w_min)/254 = 0, not 1.0, and the zero_point division
by that zero scale leaves no finite result. The guard exists only inside
quantize_block_wise's per-block loop, and even there the codes are
round(v + w_min) = 1, not the zero_point 0.3, and the block decodes to
0.7, not the constant 0.3. -/
theorem c3_counterexample :
    quantize_int8 ⟨[2], [q 3 10, q 3 10]⟩ = none ∧
    quantize_block [q 3 10, q 3 10] = some ([1, 1], 1, q 3 10) ∧
    ((1 : ℚ) ≠ q 3 10) ∧
    qmul (qsub (1 : ℚ) (q 3 10)) 1 ≠ q 3 10 := by
  decide

/-- Claim C3 (amended): quantize_int8 itself has no degenerate-range guard —
on every non-empty all-equal input its scale is 0 and it produces no finite
result. The scale = 1.0 guard lives in quantize_block_wise's per-block
encoder: there an all-equal block gets scale 1.0 and zero_point w_min with
no division by zero, each code is round(c + c) (not the zero_point), and
decoding returns the constant exactly when the constant is an integer n
with round(2n) in int8 range (for example all zeros), not in general. -/
theorem c3_degenerate_guard :
    (∀ (t : Tensor) (c : ℚ), t.data ≠ [] → (∀ x ∈ t.data, x = c) →
      quantize_int8 t = none) ∧
    (∀ (bl : List ℚ) (c : ℚ), bl ≠ [] → (∀ x ∈ bl, x = c) →
      quantize_block bl = some (bl.map (fun _ => wrapInt8 (roundHE (qadd c c))), 1, c)) ∧
    (∀ (bl : List ℚ) (n : ℤ), bl ≠ [] → (∀ x ∈ bl, x = (n : ℚ)) → -64 ≤ n → n ≤ 63 →
      (quantize_block bl).map
        (fun p => p.1.map (fun cd : ℤ => qmul (qsub (cd : ℚ) p.2.2) p.2.1)) = some bl) := by
  refine ⟨?_, fun bl c hne hall => quantize_block_const hne hall, ?_⟩
  · intro t c hne hall
    unfold quantize_int8
    rw [listMin_const hne hall, listMax_const hne hall]
    dsimp only
    rw [if_pos]
    rw [qsub_eq, sub_self, qdiv_eq, zero_div]
  · intro bl n hne hall hlo hhi
    rw [quantize_block_const hne hall]
    dsimp only [Option.map]
    congr 1
    rw [List.map_map]
    have hcode : roundHE (qadd (n : ℚ) (n : ℚ)) = 2 * n := by
      rw [qadd_eq]
      have : ((n : ℚ) + (n : ℚ)) = ((2 * n : ℤ) : ℚ) := by push_cast; ring
      rw [this, roundHE_intCast]
    have hwrap : wrapInt8 (roundHE (qadd (n : ℚ) (n : ℚ))) = 2 * n := by
      rw [hcode]
      exact wrapInt8_eq_self (by omega) (by omega)
    have hfun : ∀ x ∈ bl,
        ((fun cd : ℤ => qmul (qsub (cd : ℚ) (n : ℚ)) 1) ∘
          (fun _ => wrapInt8 (roundHE (qadd (n : ℚ) (n : ℚ))))) x = (n : ℚ) := by
      intro x _
      simp only [Function.comp]
      rw [hwrap, qmul_eq, qsub_eq, mul_one]
      push_cast
      ring
    rw [List.map_congr_left hfun]
    exact map_const_of_all_eq hall

/-- Claim C3 (witness): the amended theorem applied to concrete all-equal
inputs — quantize_int8 on [1/2, 1/2] has no finite result; the block
encoder on [5, 5] takes the scale-1 path with codes round(10) = 10; and
the all-zero block decodes back exactly. -/
theorem c3_witness :
    quantize_int8 ⟨[2], [q 1 2, q 1 2]⟩ = none ∧
    quantize_block [5, 5] = some ([10, 10], 1, 5) ∧
    (quantize_block [0, 0]).map
      (fun p => p.1.map (fun cd : ℤ => qmul (qsub (cd : ℚ) p.2.2) p.2.1)) = some [0, 0] := by
  refine ⟨c3_degenerate_guard.1 ⟨[2], [q 1 2, q 1 2]⟩ (q 1 2) (by decide) (by decide), ?_,
    c3_degenerate_guard.2.2 [0, 0] 0 (by decide) (by decide) (by decide) (by decide)⟩
  have h := c3_degenerate_guard.2.1 [5, 5] 5 (by decide) (by decide)
  rw [h]
  decide

/-- The exact-arithmetic int4 codes round((v - w_min) / scale) of a tensor. -/
def int4RawCodes (t : Tensor) (wmin scale : ℚ) : List ℤ :=
  t.data.map (fun v => roundHE (qdiv (qsub v wmin) scale))

/-- Everything claim C4 asserts about one int4 encoding: the parameter
formulas, codes in [0, 15], the nibble packing layout (byte i carries code
2i in the low nibble and code 2i+1 — or 0 padding — in the high nibble),
the ceil(N/2) packed length, and the decode recovering exactly the true
element count of codes. -/
def int4PackedOk (t : Tensor) (r : Int4Result) (wmin wmax : ℚ) : Prop :=
  r.scale = qdiv (qsub wmax wmin) 15 ∧
  r.zero_point = wmin ∧
  r.original_size = t.data.length ∧
  r.shape = t.shape ∧
  (∀ c ∈ int4RawCodes t wmin r.scale, 0 ≤ c ∧ c ≤ 15) ∧
  r.packed = packNibbles (int4RawCodes t wmin r.scale) ∧
  r.packed.length = (t.data.length + 1) / 2 ∧
  (∀ i < r.packed.length,
    r.packed.getD i 0 = (int4RawCodes t wmin r.scale).getD (2 * i) 0
      + 16 * (int4RawCodes t wmin r.scale).getD (2 * i + 1) 0) ∧
  unpack_int4 r.packed r.original_size = int4RawCodes t wmin r.scale

instance (t : Tensor) (r : Int4Result) (wmin wmax : ℚ) :
    Decidable (int4PackedOk t r wmin wmax) := by
  unfold int4PackedOk
  exact instDecidableAnd

/-- Claim C4 (counterexample): on the single-element array [0.5] the
minimum equals the maximum, so scale = (w_max - w_min)/15 = 0 and the code
division (v - zero_point)/scale is 0/0; no finite codes are produced, so
this input is not encoded as the claim describes. -/
theorem c4_counterexample : quantize_int4 ⟨[1], [q 1 2]⟩ = none := by decide

/-- Claim C4 (amended): for every input array with w_min < w_max (the only
arrays with a finite encoding), Int4Packed uses scale = (w_max - w_min)/15
and zero_point = w_min, its codes are the rounded values themselves (the
uint8 cast and the [0, 15] clip are no-ops since the exact codes lie in
[0, 15]), byte i of the packing holds code 2i in the low nibble and code
2i+1 (or 0 padding when the count is odd) in the high nibble, the payload
has ceil(N/2) bytes, and decoding with the recorded element count returns
exactly the N true codes, ignoring the padding nibble. -/
theorem c4_int4_packing :
    ∀ (t : Tensor) (r : Int4Result) (wmin wmax : ℚ),
      listMin t.data = some wmin → listMax t.data = some wmax →
      quantize_int4 t = some r → int4PackedOk t r wmin wmax := by
  intro t r wmin wmax hmin hmax h
  obtain ⟨wmin', wmax', hmin', hmax', hlt, hs, hzp, hshape, hos, hpacked⟩ := quantize_int4_some h
  rw [hmin] at hmin'
  rw [hmax] at hmax'
  injection hmin' with e1
  injection hmax' with e2
  subst e1
  subst e2
  have hraw : int4RawCodes t wmin r.scale
      = t.data.map (fun v => clip0_15 (wrapUInt8 (roundHE ((v - wmin) / r.scale)))) := by
    unfold int4RawCodes
    apply List.map_congr_left
    intro v hv
    obtain ⟨hclip, _, _, _⟩ :=
      int4_elem_bound (listMin_le hmin hv) (le_listMax hmax hv) hlt hs
    rw [qdiv_eq, qsub_eq, hclip]
  have hrange : ∀ c ∈ int4RawCodes t wmin r.scale, 0 ≤ c ∧ c ≤ 15 := by
    intro c hc
    unfold int4RawCodes at hc
    rw [List.mem_map] at hc
    obtain ⟨v, hv, rfl⟩ := hc
    obtain ⟨_, hlo, hhi, _⟩ :=
      int4_elem_bound (listMin_le hmin hv) (le_listMax hmax hv) hlt hs
    rw [qdiv_eq, qsub_eq]
    exact ⟨hlo, hhi⟩
  have hrange' : ∀ c ∈ int4RawCodes t wmin r.scale, 0 ≤ c ∧ c < 16 :=
    fun c hc => ⟨(hrange c hc).1, by have := (hrange c hc).2; omega⟩
  have hlenraw : (int4RawCodes t wmin r.scale).length = t.data.length := by
    unfold int4RawCodes
    rw [List.length_map]
  refine ⟨?_, hzp, hos, hshape, hrange, ?_, ?_, ?_, ?_⟩
  · rw [qdiv_eq, qsub_eq]
    exact hs
  · rw [hpacked, hraw]
  · rw [hpacked, packNibbles_length, List.length_map]
  · intro i hi
    rw [hpacked, ← hraw] at hi ⊢
    exact packNibbles_getD _ i hi
  · rw [hpacked, ← hraw, hos, ← hlenraw]
    exact unpack_packNibbles _ hrange'

/-- Claim C4 (witness): the amended theorem applied to the concrete tensor
[0, 1, 3], whose codes 0, 5, 15 pack into bytes [80, 15] with the odd
count leaving a zero padding nibble. -/
theorem c4_witness :
    int4PackedOk ⟨[3], [0, 1, 3]⟩ ⟨[80, 15], q 1 5, 0, [3], 3⟩ 0 3 :=
  c4_int4_packing _ _ _ _ (by decide) (by decide) (by decide)

/-- Claim C5 (counterexample): the claimed ordered policy is not the
selection the source applies. A critical-named rank-2 tensor of 100
elements should select Int8Linear under the claimed policy, but
mixed_precision_quantization selects Float16 (it has no critical-name rule
at all); and a one-element tensor should select Passthrough, but
quantize_mixed_precision selects Int4 (it consults only the name, never
shape or element count). -/
theorem c5_counterexample :
    select_spec "encoder.conv1.weight" [10, 10] 100 = Scheme.int8Linear ∧
    mixed_precision_select [10, 10] 100 = Scheme.float16 ∧
    select_spec "foo" [] 1 = Scheme.passthrough ∧
    quantize_mixed_precision_scheme "foo" = Scheme.int4Packed := by
  decide

/-- Claim C5 (amended): each selector in the source is a pure deterministic
function of its inputs, but the policies differ from the claim.
mixed_precision_quantization selects, first match wins: rank >= 2 and more
than 1000 elements -> Int8Linear; more than one element -> Float16;
otherwise Passthrough — with no critical-name rule. The critical-name rule
lives only in advanced_quantization's quantize_mixed_precision, which maps
critical names to Int8 and every other name to Int4 regardless of shape or
element count. -/
theorem c5_selector_characterization :
    (∀ (shape : List ℕ) (numel : ℕ),
      (mixed_precision_select shape numel = Scheme.int8Linear ↔
        2 ≤ shape.length ∧ 1000 < numel) ∧
      (mixed_precision_select shape numel = Scheme.passthrough ↔ numel ≤ 1) ∧
      (mixed_precision_select shape numel = Scheme.float16 ↔
        1 < numel ∧ ¬(2 ≤ shape.length ∧ 1000 < numel))) ∧
    (∀ name : String,
      quantize_mixed_precision_scheme name
        = if is_critical name then Scheme.int8Linear else Scheme.int4Packed) := by
  constructor
  · intro shape numel
    unfold mixed_precision_select
    split_ifs with h1 h2
    · refine ⟨iff_of_true rfl h1, ?_, ?_⟩
      · exact iff_of_false (by intro he; cases he) (by omega)
      · exact iff_of_false (by intro he; cases he) (fun hp => hp.2 h1)
    · refine ⟨?_, ?_, iff_of_true rfl ⟨h2, h1⟩⟩
      · exact iff_of_false (by intro he; cases he) (fun hp => h1 hp)
      · exact iff_of_false (by intro he; cases he) (by omega)
    · refine ⟨?_, iff_of_true rfl (by omega), ?_⟩
      · exact iff_of_false (by intro he; cases he) (fun hp => h1 hp)
      · exact iff_of_false (by intro he; cases he) (fun hp => h2 hp.1)
  · intro name
    rfl

/-- Claim C5 (witness): the amended characterization applied at concrete
inputs — a large rank-2 tensor selects Int8Linear, and a critical layer
name selects Int8 in the name-based selector. -/
theorem c5_witness :
    mixed_precision_select [10, 10] 5000 = Scheme.int8Linear ∧
    quantize_mixed_precision_scheme "decoder.ln.weight" = Scheme.int8Linear := by
  constructor
  · exact ((c5_selector_characterization.1 [10, 10] 5000).1).mpr (by decide)
  · rw [c5_selector_characterization.2 "decoder.ln.weight"]
    decide

/-- Claim C6 (counterexample): a 5-element tensor (at least one element)
under block size 128 is not partitioned into blocks at all: the encoder
returns the whole-tensor int8 dict. -/
theorem c6_counterexample :
    quantize_block_wise ⟨[5], [0, 1, 2, 3, 4]⟩ 128
      = some (.whole ⟨[-127, -64, 0, 64, 127], q 2 127, -127, [5]⟩) := by
  decide

/-- Claim C6 (amended): for every tensor with at least block_size elements
(smaller tensors take the whole-tensor fallback), the encoder flattens the
data and partitions it into contiguous blocks — block i has min(block_size,
N - i * block_size) elements, so exactly block_size except a possibly
shorter last block, and the blocks concatenate back to the data — encoding
each block independently with its own scale and zero-point; in particular
a 300-element tensor with block_size 128 yields exactly 3 blocks of sizes
128, 128 and 44. -/
theorem c6_blockwise_partition :
    (∀ (t : Tensor) (bs : ℕ), 0 < bs → bs ≤ t.data.length →
      ∃ b : BlockResult, quantize_block_wise t bs = some (.blocks b) ∧
        b.block_size = bs ∧
        b.shape = t.shape ∧
        (blocksOf t.data bs).flatten = t.data ∧
        (blocksOf t.data bs).map List.length
          = (List.range (numBlocks bs t.data.length)).map
              (fun i => min bs (t.data.length - i * bs)) ∧
        b.blocks.length = numBlocks bs t.data.length ∧
        b.scales.length = numBlocks bs t.data.length ∧
        b.zero_points.length = numBlocks bs t.data.length ∧
        List.Forall₂ (fun bl p => quantize_block bl = some p)
          (blocksOf t.data bs) (b.blocks.zip (b.scales.zip b.zero_points))) ∧
    numBlocks 128 300 = 3 ∧
    (∀ l : List ℚ, l.length = 300 →
      (blocksOf l 128).map List.length = [128, 128, 44]) := by
  refine ⟨?_, by decide, ?_⟩
  · intro t bs hbs hge
    have hne : ∀ bl ∈ blocksOf t.data bs, bl ≠ [] :=
      fun bl hbl => blocksOf_mem_ne_nil hbs hbl
    obtain ⟨qs, hqs⟩ :=
      mapOption_of_forall (fun bl hbl => quantize_block_of_ne_nil (hne bl hbl))
    have hF := mapOption_eq_forall₂ hqs
    have hlen : (blocksOf t.data bs).length = numBlocks bs t.data.length := by
      unfold blocksOf
      rw [List.length_map, List.length_range]
    have hlen2 : (blocksOf t.data bs).length = qs.length := List.Forall₂.length_eq hF
    refine ⟨⟨qs.map (fun p => p.1), qs.map (fun p => p.2.1), qs.map (fun p => p.2.2),
      t.shape, bs⟩, ?_, rfl, rfl, blocksOf_flatten hbs t.data,
      blocksOf_map_length t.data bs, ?_, ?_, ?_, ?_⟩
    · unfold quantize_block_wise
      rw [if_neg (not_lt.mpr hge), hqs]
    · dsimp only
      rw [List.length_map]
      omega
    · dsimp only
      rw [List.length_map]
      omega
    · dsimp only
      rw [List.length_map]
      omega
    · dsimp only
      rw [zip_proj]
      exact hF
  · intro l hl
    rw [blocksOf_map_length, hl]
    rw [show numBlocks 128 300 = 3 from by decide]
    decide

/-- Claim C6 (witness): the amended theorem applied to a concrete
300-element tensor (and a small instance of the partition), with the
3-block 128/128/44 split concluded for the concrete list 0, ..., 299. -/
theorem c6_witness :
    (blocksOf ((List.range 300).map (fun n : ℕ => (n : ℚ))) 128).map List.length
      = [128, 128, 44] :=
  c6_blockwise_partition.2.2 ((List.range 300).map (fun n : ℕ => (n : ℚ)))
    (by rw [List.length_map, List.length_range])

/-- Claim C7: for a tensor with N elements the int8 quantized size
accounted by the reporter is exactly N + 16 bytes (one byte per code plus
the fixed 16-byte parameter overhead) and the int4 quantized size is
exactly ceil(N/2) + 16 = (N+1)/2 + 16 bytes, as literal equalities. -/
theorem c7_payload_sizes :
    ∀ t : Tensor, 1 < t.data.length →
      (∀ r : Int8Result, quantize_int8 t = some r →
        int8_quantized_size r = t.data.length + 16) ∧
      (∀ r : Int4Result, quantize_int4 t = some r →
        int4_quantized_size r = (t.data.length + 1) / 2 + 16) := by
  intro t _
  constructor
  · intro r h
    obtain ⟨_, _, _, _, _, _, _, _, hw⟩ := quantize_int8_some h
    unfold int8_quantized_size
    rw [hw, List.length_map]
  · intro r h
    obtain ⟨_, _, _, _, _, _, _, _, _, hpacked⟩ := quantize_int4_some h
    unfold int4_quantized_size
    rw [hpacked, packNibbles_length, List.length_map]

/-- Claim C7 (witness): the payload size equalities at concrete encodings
of a 5-element and a 3-element tensor. -/
theorem c7_witness :
    int8_quantized_size ⟨[-127, -64, 0, 64, 127], q 2 127, -127, [5]⟩ = 5 + 16 ∧
    int4_quantized_size ⟨[80, 15], q 1 5, 0, [3], 3⟩ = (3 + 1) / 2 + 16 := by
  constructor
  · exact (c7_payload_sizes ⟨[5], [0, 1, 2, 3, 4]⟩ (by decide)).1 _ (by decide)
  · exact (c7_payload_sizes ⟨[3], [0, 1, 3]⟩ (by decide)).2 _ (by decide)

/-- Claim C8 (counterexample): a stored record with the unrecognized scheme
tag "99" does not raise CorruptPayload — the loader's final else branch
returns its weights unchanged, the very silent fallback the claim rules
out; the specification's decode would have signalled CorruptPayload. -/
theorem c8_counterexample :
    load_entry ⟨"99", [1, 2], 0, 0⟩ = [1, 2] ∧
    load_entry_spec ⟨"99", [1, 2], 0, 0⟩ = DecodeResult.corruptPayload := by
  decide

/-- Claim C8 (amended): the loader validates nothing: for every stored
record whose dtype tag is neither "int8" nor "float16" — unrecognized tags
included — load_mixed_precision_model returns the stored weights unchanged
(a silent fallback to the keep-as-is branch); no CorruptPayload error
exists anywhere in the code, while the specification's decode maps every
such record to CorruptPayload. -/
theorem c8_unknown_tag_fallback :
    ∀ e : StoredEntry, e.dtype ≠ "int8" → e.dtype ≠ "float16" →
      load_entry e = e.weights ∧ load_entry_spec e = DecodeResult.corruptPayload := by
  intro e h1 h2
  unfold load_entry load_entry_spec
  rw [if_neg h1, if_neg h2, if_neg h1, if_neg h2]
  exact ⟨rfl, rfl⟩

/-- Claim C8 (witness): the amended theorem applied to a concrete record
with the unknown tag "int4". -/
theorem c8_witness :
    load_entry ⟨"int4", [3], 2, 1⟩ = [3] ∧
    load_entry_spec ⟨"int4", [3], 2, 1⟩ = DecodeResult.corruptPayload :=
  c8_unknown_tag_fallback ⟨"int4", [3], 2, 1⟩ (by decide) (by decide)

lemma advanced_totals_foldl (catalog : List Tensor) : ∀ acc : ℕ × ℕ,
    catalog.foldl advanced_step acc
      = (acc.1 + (catalog.map (fun t => t.data.length * 4)).sum,
         acc.2 + (catalog.map (fun t =>
           if 2 ≤ t.shape.length then t.data.length + 16 else t.data.length * 4)).sum) := by
  induction catalog with
  | nil => intro acc; simp
  | cons t ts ih =>
    intro acc
    rw [List.foldl_cons, ih]
    unfold advanced_step tensor_nbytes
    by_cases h : 2 ≤ t.shape.length
    · simp only [if_pos h, List.map_cons, List.sum_cons, Prod.mk.injEq]
      constructor <;> omega
    · simp only [if_neg h, List.map_cons, List.sum_cons, Prod.mk.injEq]
      constructor <;> omega

/-- Claim C9 (counterexample): the cross-method summary of
advanced_quantization reports against a hardcoded prior size of 1457 MB
(original_size = 1457, "from cache"), regardless of the catalog: for a
catalog whose true total original size sum(numel * 4) is 16 bytes, the
summary still computes its savings and ratio from 1457 MB = 1,527,898,112
bytes — never from the catalog, let alone from bytes actually written. -/
theorem c9_counterexample :
    compare_savings 1 = 1456 ∧
    compare_compression 1457 = 1 ∧
    (advanced_totals [⟨[2, 2], [0, 1, 2, 3]⟩]).1 = 16 ∧
    qmul compare_original_size_mb 1048576 ≠ ((advanced_totals [⟨[2, 2], [0, 1, 2, 3]⟩]).1 : ℚ) := by
  decide

/-- Claim C9 (amended): the in-loop reporter of advanced_quantization
computes overall_compression = total_original / total_quantized and space
saved = total_original - total_quantized, with total_original =
sum(numel * 4) over the catalog; but total_quantized is the per-tensor
size estimate sum(N + 16 for quantized tensors, numel * 4 otherwise), not
bytes written to any archive, and the cross-method summary compares
against a hardcoded 1457 MB prior (the counterexample); only
real_quantization measures an actually-written archive, whose tar.gz byte
count is file-system output outside this embedding. -/
theorem c9_reporter_formulas :
    ∀ catalog : List Tensor,
      (advanced_totals catalog).1 = (catalog.map (fun t => t.data.length * 4)).sum ∧
      (advanced_totals catalog).2 = (catalog.map (fun t =>
        if 2 ≤ t.shape.length then t.data.length + 16 else t.data.length * 4)).sum ∧
      advanced_overall_compression catalog
        = ((advanced_totals catalog).1 : ℚ) / ((advanced_totals catalog).2 : ℚ) ∧
      advanced_space_saved catalog
        = ((advanced_totals catalog).1 : ℤ) - ((advanced_totals catalog).2 : ℤ) := by
  intro catalog
  refine ⟨?_, ?_, ?_, rfl⟩
  · show (advanced_totals catalog).1 = _
    unfold advanced_totals
    rw [advanced_totals_foldl catalog (0, 0)]
    simp
  · show (advanced_totals catalog).2 = _
    unfold advanced_totals
    rw [advanced_totals_foldl catalog (0, 0)]
    simp
  · unfold advanced_overall_compression
    rw [qdiv_eq]

/-- Claim C9 (witness): the amended formulas applied to a concrete
two-tensor catalog — the rank-2 tensor contributes 16 original bytes, the
rank-1 tensor 12, so total_original is 28. -/
theorem c9_witness :
    (advanced_totals [⟨[2, 2], [0, 1, 2, 3]⟩, ⟨[3], [1, 2, 3]⟩]).1 = 28 := by
  have h := (c9_reporter_formulas [⟨[2, 2], [0, 1, 2, 3]⟩, ⟨[3], [1, 2, 3]⟩]).1
  rw [h]
  decide

/-- Claim C10: for every input with fewer elements than block_size, the
block-wise encoder takes the early-return fallback: it produces exactly
the whole-tensor Int8Linear result (a single scale and zero-point, no
per-block parameter arrays), wrapped in the other constructor of the
result type — so callers see two distinct result structures from the same
operation. -/
theorem c10_small_tensor_fallback :
    ∀ (t : Tensor) (bs : ℕ), t.data.length < bs →
      quantize_block_wise t bs = (quantize_int8 t).map BlockWiseResult.whole ∧
      (∀ r : Int8Result, quantize_int8 t = some r →
        quantize_block_wise t bs = some (.whole r)) := by
  intro t bs hlt
  constructor
  · unfold quantize_block_wise
    rw [if_pos hlt]
  · intro r hr
    unfold quantize_block_wise
    rw [if_pos hlt, hr]
    rfl

/-- Claim C10 (witness): a 2-element tensor under block size 5 returns the
whole-tensor int8 encoding. -/
theorem c10_witness :
    quantize_block_wise ⟨[2], [0, 1]⟩ 5
      = some (.whole ⟨[-127, 127], q 1 254, -127, [2]⟩) :=
  (c10_small_tensor_fallback ⟨[2], [0, 1]⟩ 5 (by decide)).2 _ (by decide)

end Quant

